import Mathlib

/-!
# Verification of the rustme template-resolution engine

A shallow embedding of `src/rustme.rs` (khonsulabs/rustme).  Strings are
modelled as lists of bytes (`List Nat`), matching the byte-oriented scanner
of the source (`StrByteIterator` iterates `&[u8]`).  Fallible operations
return `Except Error`, where `Error.Panic` additionally models a Rust panic
(an aborted process, not a returned error).  Loops of the source are
modelled with an explicit fuel argument; every top-level entry point passes
`input.length + 1` fuel, which is sufficient because every loop iteration of
the source consumes at least one byte (the fuel-exhaustion branches are
unreachable for those calls).
-/

namespace Rustme

/-- The output context (`struct Context` in the source): whether the run
targets documentation output and whether it targets release output. -/
structure Context where
  for_docs : Bool
  release : Bool
deriving DecidableEq

/-- A glossary value (`enum Term`): either the same value in all contexts,
or conditional on the output context.  Field order follows the source:
`for_docs`, `release`, `default`. -/
inductive Term where
  | Static (value : List Nat)
  | Conditional (for_docs release default : Option (List Nat))
deriving DecidableEq

/-- The error enum of the source (the constructors the engine can produce),
plus `Panic`, which models a Rust panic (e.g. an out-of-bounds slice). -/
inductive Error where
  | MalformedSnippetReference
  | MalformedSnippet
  | MalformedCodeBlock
  | SnippetAlreadyDefined (name : List Nat)
  | SnippetNotFound (name : List Nat)
  | SnippetEndNotFound
  | Unicode
  | Panic
deriving DecidableEq

deriving instance DecidableEq for Except

/-- The snippet store: `HashMap<String, String>` modelled as an association
list (first match wins on lookup, insertion replaces). -/
abbrev Snippets := List (List Nat × List Nat)

/-- A merged glossary: `HashMap<String, Term>` as an association list. -/
abbrev GlossaryMap := List (List Nat × Term)

/-- Lookup in an association list (models `HashMap::get`). -/
def alistGet {α : Type} (key : List Nat) (m : List (List Nat × α)) : Option α :=
  match m with
  | [] => none
  | (k, v) :: rest => if k = key then some v else alistGet key rest

/-- Insert into an association list, replacing an existing binding
(models `HashMap::insert`'s effect on the map). -/
def alistInsert {α : Type} (key : List Nat) (value : α) (m : List (List Nat × α)) :
    List (List Nat × α) :=
  match m with
  | [] => [(key, value)]
  | (k, v) :: rest =>
    if k = key then (key, value) :: rest else (k, v) :: alistInsert key value rest

/-- UTF-8 encoding of one Unicode scalar value (by code point). -/
def encodeCp (n : Nat) : List Nat :=
  if n < 0x80 then [n]
  else if n < 0x800 then [0xC0 + n / 0x40, 0x80 + n % 0x40]
  else if n < 0x10000 then
    [0xE0 + n / 0x1000, 0x80 + n / 0x40 % 0x40, 0x80 + n % 0x40]
  else
    [0xF0 + n / 0x40000, 0x80 + n / 0x1000 % 0x40, 0x80 + n / 0x40 % 0x40, 0x80 + n % 0x40]

/-- The UTF-8 bytes of a Lean string literal; used to write concrete byte
strings in statements. -/
def bs (s : String) : List Nat :=
  s.data.foldr (fun c acc => encodeCp c.toNat ++ acc) []

/-- Is `b` a UTF-8 continuation byte (`0x80..=0xBF`)? -/
def contB (b : Nat) : Bool := decide (0x80 ≤ b ∧ b < 0xC0)

/-- One step of the UTF-8 validation automaton.  The state is the list of
byte ranges still expected to finish the current character; in the empty
state a byte either is ASCII or opens a multi-byte sequence (with the
constrained ranges Rust's `run_utf8_validation` enforces on the second
byte, rejecting overlong encodings, surrogates and code points above
`0x10FFFF`). -/
def utf8Step : List (Nat × Nat) → Nat → Option (List (Nat × Nat))
  | [], b =>
    if b < 0x80 then some []
    else if 0xC2 ≤ b ∧ b < 0xE0 then some [(0x80, 0xBF)]
    else if b = 0xE0 then some [(0xA0, 0xBF), (0x80, 0xBF)]
    else if b = 0xED then some [(0x80, 0x9F), (0x80, 0xBF)]
    else if 0xE0 ≤ b ∧ b < 0xF0 then some [(0x80, 0xBF), (0x80, 0xBF)]
    else if b = 0xF0 then some [(0x90, 0xBF), (0x80, 0xBF), (0x80, 0xBF)]
    else if b = 0xF4 then some [(0x80, 0x8F), (0x80, 0xBF), (0x80, 0xBF)]
    else if 0xF0 ≤ b ∧ b < 0xF5 then some [(0x80, 0xBF), (0x80, 0xBF), (0x80, 0xBF)]
    else none
  | (lo, hi) :: expected, b => if lo ≤ b ∧ b ≤ hi then some expected else none

/-- Run the validation automaton over a byte list, returning the final
state (`none` on a rejected byte). -/
def utf8Consume : List (Nat × Nat) → List Nat → Option (List (Nat × Nat))
  | expected, [] => some expected
  | expected, b :: rest => (utf8Step expected b).bind (fun e => utf8Consume e rest)

/-- Strict UTF-8 validity of a byte list, mirroring Rust's `str` invariant:
the automaton accepts from the empty state and ends in the empty state. -/
def utf8Valid (s : List Nat) : Bool := utf8Consume [] s == some []

/-- Index of the first byte at which `StrByteIterator::read_until` stops:
the callback is consulted only for byte values below 128 (the source's
guard against splitting a multi-byte code point). -/
def stopIdx (cb : Nat → Bool) : List Nat → Option Nat
  | [] => none
  | b :: rest =>
    if decide (b < 128) && cb b then some 0 else (stopIdx cb rest).map (· + 1)

/-- `StrByteIterator::read_until`: consumes up to (and optionally including)
the first byte below 128 satisfying `cb`, or the whole remainder; fails with
a Unicode error when the consumed bytes are not valid UTF-8.  Returns the
consumed prefix and the new remainder. -/
def read_until (cb : Nat → Bool) (include_last_byte : Bool) (s : List Nat) :
    Except Error (List Nat × List Nat) :=
  let cut : Nat :=
    match stopIdx cb s with
    | some i => if include_last_byte then i + 1 else i
    | none => s.length
  if utf8Valid (s.take cut) then .ok (s.take cut, s.drop cut) else .error .Unicode

/-- `StrByteIterator::read_until_char`. -/
def read_until_char (ch : Nat) (s : List Nat) : Except Error (List Nat × List Nat) :=
  read_until (fun b => b == ch) false s

/-- `StrByteIterator::read_line`: read up to and including the next `\n`. -/
def read_line (s : List Nat) : Except Error (List Nat × List Nat) :=
  read_until (fun b => b == 10) true s

/-- `StrByteIterator::try_read`: consume `compare_against` if it is a prefix
of the remainder. -/
def try_read (compare_against : List Nat) (s : List Nat) : Bool × List Nat :=
  if compare_against.isPrefixOf s then (true, s.drop compare_against.length) else (false, s)

/-- `Term::to_string`: render a term against the output context.  The
`for_docs` value is preferred when the documentation flag is set, then the
`release` value when the release flag is set, then `default` (empty string
when unset). -/
def Term.to_string (t : Term) (context : Context) : List Nat :=
  match t with
  | .Static value => value
  | .Conditional for_docs_value rel df =>
    match context.for_docs, for_docs_value with
    | true, some value => value
    | _, _ =>
      match context.release, rel with
      | true, some value => value
      | _, _ => df.getD []

/-- `Term::update_with`: merge an incoming term over an existing one.  An
incoming `Static` replaces unconditionally; `Conditional` over `Static`
keeps the static value as the default unless the incoming term has one;
`Conditional` over `Conditional` merges field-wise, incoming fields
winning. -/
def Term.update_with (self other : Term) : Term :=
  match self, other with
  | _, .Static value => .Static value
  | .Static value, .Conditional fd rl df => .Conditional fd rl (df.or (some value))
  | .Conditional fd rl df, .Conditional ofd orl odf =>
    .Conditional (ofd.or fd) (orl.or rl) (odf.or df)

/-- `merge_term`: merge one glossary entry into the combined map — update
the existing term in place when the key is present, insert otherwise. -/
def merge_term (combined : GlossaryMap) (key : List Nat) (term : Term) : GlossaryMap :=
  if (alistGet key combined).isSome then
    combined.map (fun p => if p.1 = key then (p.1, Term.update_with p.2 term) else p)
  else combined ++ [(key, term)]

/-- The code points with the Unicode `White_Space` property (what Rust's
`char::is_whitespace`, used by `str::trim`, tests). -/
def wsCp (n : Nat) : Bool :=
  n == 9 || n == 10 || n == 11 || n == 12 || n == 13 || n == 32 ||
    n == 0x85 || n == 0xA0 || n == 0x1680 || decide (0x2000 ≤ n ∧ n ≤ 0x200A) ||
    n == 0x2028 || n == 0x2029 || n == 0x202F || n == 0x205F || n == 0x3000

/-- Decode the first UTF-8 scalar of a byte list: its code point and its
byte length.  `none` on empty or invalid input. -/
def decodeOne : List Nat → Option (Nat × Nat)
  | [] => none
  | b :: rest =>
    if b < 0x80 then some (b, 1)
    else if 0xC2 ≤ b ∧ b < 0xE0 then
      match rest with
      | c1 :: _ => if contB c1 then some ((b - 0xC0) * 0x40 + (c1 - 0x80), 2) else none
      | [] => none
    else if 0xE0 ≤ b ∧ b < 0xF0 then
      match rest with
      | c1 :: c2 :: _ =>
        if contB c1 && contB c2 && (decide (b ≠ 0xE0) || decide (0xA0 ≤ c1)) &&
            (decide (b ≠ 0xED) || decide (c1 < 0xA0)) then
          some ((b - 0xE0) * 0x1000 + (c1 - 0x80) * 0x40 + (c2 - 0x80), 3)
        else none
      | _ => none
    else if 0xF0 ≤ b ∧ b < 0xF5 then
      match rest with
      | c1 :: c2 :: c3 :: _ =>
        if contB c1 && contB c2 && contB c3 && (decide (b ≠ 0xF0) || decide (0x90 ≤ c1)) &&
            (decide (b ≠ 0xF4) || decide (c1 < 0x90)) then
          some ((b - 0xF0) * 0x40000 + (c1 - 0x80) * 0x1000 + (c2 - 0x80) * 0x40 + (c3 - 0x80), 4)
        else none
      | _ => none
    else none

/-- Fueled worker for `str::trim_start`: drop leading whitespace
characters.  Each iteration consumes at least one byte, so
`s.length + 1` fuel never runs out. -/
def trimStartGo : Nat → List Nat → List Nat
  | 0, s => s
  | fuel + 1, s =>
    match decodeOne s with
    | some (cp, k) => if wsCp cp then trimStartGo fuel (s.drop k) else s
    | none => s

/-- `str::trim_start` on bytes. -/
def trimStart (s : List Nat) : List Nat := trimStartGo (s.length + 1) s

/-- Fueled worker for `str::trim_end`: drop the maximal run of trailing
whitespace characters. -/
def trimEndGo : Nat → List Nat → List Nat
  | 0, s => s
  | fuel + 1, s =>
    match decodeOne s with
    | none => s
    | some (cp, k) =>
      let rest := trimEndGo fuel (s.drop k)
      if rest = [] && wsCp cp then [] else s.take k ++ rest

/-- `str::trim_end` on bytes. -/
def trimEnd (s : List Nat) : List Nat := trimEndGo (s.length + 1) s

/-- `str::trim` on bytes. -/
def trim (s : List Nat) : List Nat := trimEnd (trimStart s)

/-- `str::find` for a literal pattern: byte index of the first occurrence
of `pat` in `s`. -/
def findSeq (pat : List Nat) : List Nat → Option Nat
  | [] => if pat = [] then some 0 else none
  | b :: rest =>
    if pat.isPrefixOf (b :: rest) then some 0 else (findSeq pat rest).map (· + 1)

/-- `str::contains` for a literal pattern. -/
def hasSeq (pat s : List Nat) : Bool := (findSeq pat s).isSome

/-- Strip one trailing carriage return, as `str::lines` does on lines that
were terminated by `\r\n`. -/
def stripCr (l : List Nat) : List Nat :=
  if l.getLast? = some 13 then l.dropLast else l

/-- Fueled worker for `str::lines`: split at `\n`, strip a trailing `\r`
from each split line, keep a final fragment not terminated by `\n` as-is
(without `\r`-stripping, as in the source of `str::lines`). -/
def linesGo : Nat → List Nat → List (List Nat)
  | 0, _ => []
  | fuel + 1, s =>
    match stopIdx (fun b => b == 10) s with
    | none => if s = [] then [] else [s]
    | some i => stripCr (s.take i) :: linesGo fuel (s.drop (i + 1))

/-- `str::lines` on bytes. -/
def linesOf (s : List Nat) : List (List Nat) := linesGo (s.length + 1) s

/-- `Vec::join("\n")`. -/
def joinNl : List (List Nat) → List Nat
  | [] => []
  | [l] => l
  | l :: ls => l ++ 10 :: joinNl ls

/-- The byte slice `&s[0..1]` of a Rust `&str`: `none` models the panic
raised when the string is empty or byte 1 is not a character boundary. -/
def slice_0_1 : List Nat → Option Nat
  | [] => none
  | [b] => some b
  | b :: c :: _ => if c < 0x80 ∨ 0xC0 ≤ c then some b else none

/-- The byte slice `&s[1..]` of a Rust `&str`: `none` models the panic
raised when the string is empty or byte 1 is not a character boundary. -/
def slice_1 : List Nat → Option (List Nat)
  | [] => none
  | [_] => some []
  | _ :: c :: rest => if c < 0x80 ∨ 0xC0 ≤ c then some (c :: rest) else none

/-- The closure tested by `remove_shared_prefix` against every element of
`strings[1..]`: the element is non-empty, its first byte is ASCII
whitespace, and its first byte equals the first byte of `strings[0]`
(slicing `strings[0][0..1]` can panic, hence `Option`). -/
def stripCondElem (first s : List Nat) : Option Bool :=
  match s with
  | [] => some false
  | b :: _ =>
    if b = 32 ∨ b = 9 ∨ b = 10 ∨ b = 12 ∨ b = 13 then
      match slice_0_1 first with
      | none => none
      | some fb => some (b = fb)
    else some false

/-- `strings[1..].iter().all(closure)`, with short-circuiting and panic
propagation. -/
def stripCondAll (first : List Nat) : List (List Nat) → Option Bool
  | [] => some true
  | s :: rest =>
    match stripCondElem first s with
    | none => none
    | some false => some false
    | some true => stripCondAll first rest

/-- `List.mapM slice_1`: strip the first byte from every line, propagating
the panic of an empty line. -/
def mapSlice1 : List (List Nat) → Option (List (List Nat))
  | [] => some []
  | s :: rest =>
    match slice_1 s with
    | none => none
    | some s' => (mapSlice1 rest).map (s' :: ·)

/-- The `loop` of `remove_shared_prefix`.  Each iteration shortens
`strings[0]` by one byte, so `strings[0].length + 1` fuel never runs out;
`none` models a panic. -/
def stripLoopGo : Nat → List (List Nat) → Option (List (List Nat))
  | 0, _ => none
  | fuel + 1, strings =>
    match strings with
    | [] => none
    | first :: rest =>
      match stripCondAll first rest with
      | none => none
      | some false => some (first :: rest)
      | some true =>
        match slice_1 first with
        | none => none
        | some first' =>
          match mapSlice1 rest with
          | none => none
          | some rest' => stripLoopGo fuel (first' :: rest')

/-- `remove_shared_prefix`: returns early when the slice is empty or its
first line is empty; otherwise repeats the stripping loop.  `none` models a
panic (an out-of-bounds byte slice). -/
def remove_shared_prefix (strings : List (List Nat)) : Option (List (List Nat)) :=
  match strings with
  | [] => some []
  | first :: rest =>
    if first = [] then some (first :: rest)
    else stripLoopGo (first.length + 1) (first :: rest)

/-- The literal `begin rustme snippet:` marker phrase. -/
def SNIPPET_START : List Nat := bs "begin rustme snippet:"

/-- The literal `end rustme snippet` marker phrase. -/
def SNIPPET_END : List Nat := bs "end rustme snippet"

/-- One iteration of the per-line loop of `load_snippets`: a line bearing a
begin marker resets the collector to the newly named region; a line bearing
an end marker closes the open region (erroring when none is open, when the
name is already taken, or — via `Panic` — when shared-prefix stripping
panics); any other line is collected when a region is open.  Returns the
new (name, collected lines, store) state. -/
def snippetsLine (ref_path line : List Nat) (current_name : Option (List Nat))
    (current_lines : List (List Nat)) (snippets : Snippets) :
    Except Error (Option (List Nat) × List (List Nat) × Snippets) :=
  match findSeq SNIPPET_START line with
  | some phrase_start =>
    let name := List.takeWhile (fun b => b != 32)
      (trim (line.drop (phrase_start + SNIPPET_START.length)))
    .ok (some name, [], snippets)
  | none =>
    if hasSeq SNIPPET_END line then
      match current_name with
      | some name =>
        match remove_shared_prefix current_lines with
        | none => .error .Panic
        | some stripped =>
          let key := ref_path ++ 58 :: name
          if (alistGet key snippets).isSome then .error (.SnippetAlreadyDefined name)
          else .ok (none, current_lines, alistInsert key (joinNl stripped) snippets)
      | none => .error .MalformedSnippet
    else if current_name.isSome then .ok (current_name, current_lines ++ [line], snippets)
    else .ok (current_name, current_lines, snippets)

/-- The per-line loop of `load_snippets`, threading the state through
`snippetsLine`. -/
def snippetsGo (ref_path : List Nat) :
    List (List Nat) → Option (List Nat) → List (List Nat) → Snippets →
    Except Error Snippets
  | [], _, _, snippets => .ok snippets
  | line :: rest, current_name, current_lines, snippets =>
    match snippetsLine ref_path line current_name current_lines snippets with
    | .error e => .error e
    | .ok (name, lines, snippets') => snippetsGo ref_path rest name lines snippets'

/-- `load_snippets`: scan a source file for snippet regions.  `contents?`
is the result of reading the file from disk (`none` models `NotFound`).
After scanning, the whole file is stored under the bare path key. -/
def load_snippets (ref_path : List Nat) (contents? : Option (List Nat))
    (snippets : Snippets) : Except Error Snippets :=
  match contents? with
  | none => .error (.SnippetNotFound ref_path)
  | some contents =>
    match snippetsGo ref_path (linesOf contents) none [] snippets with
    | .error e => .error e
    | .ok snippets' => .ok (alistInsert ref_path contents snippets')

/-- `load_snippet`: resolve a `path` or `path:name` reference, loading the
file's regions on the first miss.  `fs` models the file system relative to
the configuration directory. -/
def load_snippet (snippet_ref : List Nat) (fs : List Nat → Option (List Nat))
    (snippets : Snippets) : Except Error (List Nat × Snippets) :=
  let path := snippet_ref.takeWhile (fun b => b != 58)
  let loaded : Except Error Snippets :=
    if (alistGet snippet_ref snippets).isSome then .ok snippets
    else load_snippets path (fs path) snippets
  match loaded with
  | .error e => .error e
  | .ok snippets' =>
    match alistGet snippet_ref snippets' with
    | some snippet => .ok (snippet, snippets')
    | none => .error (.SnippetNotFound snippet_ref)

/-- The loop of `replace_references`: read up to the next `$`; stop when no
`$` is found; otherwise read the token body up to the closing `$` (its
absence is the malformed-code-block error); an empty body emits a literal
`$`; otherwise the glossary is consulted first, then the snippet store.
One fuel is spent per iteration; every iteration that recurses consumes at
least two bytes (both `$`), so `s.length + 1` fuel never runs out. -/
def replaceRefsGo (glossary : GlossaryMap) (fs : List Nat → Option (List Nat))
    (context : Context) :
    Nat → List Nat → Snippets → List Nat → Except Error (List Nat × Snippets)
  | 0, _, _, _ => .error .Panic
  | fuel + 1, s, snippets, processed =>
    match read_until_char 36 s with
    | .error e => .error e
    | .ok (skipped, rest) =>
      match rest with
      | [] => .ok (processed ++ skipped, snippets)
      | _ :: rest1 =>
        match read_until_char 36 rest1 with
        | .error e => .error e
        | .ok (snippet_ref, rest2) =>
          match rest2 with
          | [] => .error .MalformedCodeBlock
          | _ :: rest3 =>
            if snippet_ref = [] then
              replaceRefsGo glossary fs context fuel rest3 snippets (processed ++ skipped ++ [36])
            else
              match alistGet snippet_ref glossary with
              | some term =>
                replaceRefsGo glossary fs context fuel rest3 snippets
                  (processed ++ skipped ++ Term.to_string term context)
              | none =>
                match load_snippet snippet_ref fs snippets with
                | .error e => .error e
                | .ok (snippet, snippets') =>
                  replaceRefsGo glossary fs context fuel rest3 snippets'
                    (processed ++ skipped ++ snippet)

/-- `replace_references`: resolve all `$...$` tokens of a section, ending
with the `String::from_utf8` check of the source. -/
def replace_references (markdown : List Nat) (glossary : GlossaryMap)
    (fs : List Nat → Option (List Nat)) (snippets : Snippets) (context : Context) :
    Except Error (List Nat × Snippets) :=
  match replaceRefsGo glossary fs context (markdown.length + 1) markdown snippets [] with
  | .error e => .error e
  | .ok (processed, snippets') =>
    if utf8Valid processed then .ok (processed, snippets') else .error .Unicode

/-- The inner line loop of `preprocess_rust_codeblocks`: returns the bytes
emitted for the block body (hidden `# ` lines dropped) and the remainder
after the closing fence line.  An empty line read means end of input before
a closing fence: the malformed-code-block error. -/
def blockGo : Nat → List Nat → Except Error (List Nat × List Nat)
  | 0, _ => .error .Panic
  | fuel + 1, s =>
    match read_line s with
    | .error e => .error e
    | .ok (line, rest) =>
      if line = [] then .error .MalformedCodeBlock
      else if (bs "```").isPrefixOf (trimStart line) then .ok (line, rest)
      else if (bs "# ").isPrefixOf (trimStart line) then blockGo fuel rest
      else
        match blockGo fuel rest with
        | .error e => .error e
        | .ok (out, rem) => .ok (line ++ out, rem)

/-- The outer byte loop of `preprocess_rust_codeblocks`: every `` ` ``
followed by ` ``rust ` opens a block that is rewritten by `blockGo`; every
other byte is copied through. -/
def preprocessGo : Nat → List Nat → Except Error (List Nat)
  | 0, _ => .error .Panic
  | _ + 1, [] => .ok []
  | fuel + 1, ch :: rest =>
    if ch = 96 then
      match try_read (bs "``rust") rest with
      | (true, after_tag) =>
        match read_line after_tag with
        | .error e => .error e
        | .ok (rest_of_line, body) =>
          match blockGo (body.length + 1) body with
          | .error e => .error e
          | .ok (block_out, after_block) =>
            match preprocessGo fuel after_block with
            | .error e => .error e
            | .ok tail_out => .ok (bs "```rust" ++ rest_of_line ++ block_out ++ tail_out)
      | (false, _) =>
        match preprocessGo fuel rest with
        | .error e => .error e
        | .ok tail_out => .ok (ch :: tail_out)
    else
      match preprocessGo fuel rest with
      | .error e => .error e
      | .ok tail_out => .ok (ch :: tail_out)

/-- `preprocess_rust_codeblocks`: rewrite ```` ```rust ```` fenced blocks
the way rustdoc renders them, ending with the `String::from_utf8` check. -/
def preprocess_rust_codeblocks (markdown : List Nat) : Except Error (List Nat) :=
  match preprocessGo (markdown.length + 1) markdown with
  | .error e => .error e
  | .ok processed =>
    if utf8Valid processed then .ok processed else .error .Unicode

/-- `process_markdown`: reference resolution followed by the code-block
rewrite. -/
def process_markdown (markdown : List Nat) (glossary : GlossaryMap)
    (fs : List Nat → Option (List Nat)) (snippets : Snippets) (context : Context) :
    Except Error (List Nat × Snippets) :=
  match replace_references markdown glossary fs snippets context with
  | .error e => .error e
  | .ok (expanded, snippets') =>
    match preprocess_rust_codeblocks expanded with
    | .error e => .error e
    | .ok out => .ok (out, snippets')

/-- The per-file section loop of `Configuration::generate_with_cache`:
process each section in order, writing a `\n` separator before every
section but the first, threading the snippet store. -/
def generateFileGo (glossary : GlossaryMap) (fs : List Nat → Option (List Nat))
    (context : Context) :
    List (List Nat) → Snippets → List Nat → Bool → Except Error (List Nat × Snippets)
  | [], snippets, output, _ => .ok (output, snippets)
  | section_text :: rest, snippets, output, is_first =>
    let output := if is_first then output else output ++ [10]
    match process_markdown section_text glossary fs snippets context with
    | .error e => .error e
    | .ok (processed, snippets') =>
      generateFileGo glossary fs context rest snippets' (output ++ processed) false

/-- The bytes written for one configured output file, given the fetched
section texts (lines 119–138 of the source). -/
def generateFile (sections : List (List Nat)) (glossary : GlossaryMap)
    (fs : List Nat → Option (List Nat)) (context : Context) (snippets : Snippets) :
    Except Error (List Nat) :=
  match generateFileGo glossary fs context sections snippets [] true with
  | .error e => .error e
  | .ok (output, _) => .ok output

/-- Modelled from the spec: "output byte-identical to the concatenation of
its sections", "sections concatenated with a single blank-line separator"
— the concatenation of the section texts with the separator the generator
writes between consecutive sections. -/
def concatSections : List (List Nat) → List Nat
  | [] => []
  | [s] => s
  | s :: rest => s ++ 10 :: concatSections rest

/-! ## Helper lemmas -/

/-- Looking up a key in the field-wise updated map rewrites the looked-up
term through `Term.update_with`. -/
theorem alistGet_mapUpdate (key : List Nat) (t : Term) :
    ∀ m : GlossaryMap,
      alistGet key (m.map (fun p => if p.1 = key then (p.1, Term.update_with p.2 t) else p)) =
        (alistGet key m).map (fun x => Term.update_with x t)
  | [] => rfl
  | (k, v) :: rest => by
    rw [List.map_cons]
    by_cases h : k = key
    · rw [if_pos (show (k, v).1 = key from h)]
      rw [alistGet, alistGet, if_pos h, if_pos h]
      rfl
    · rw [if_neg (show ¬ (k, v).1 = key from h)]
      rw [alistGet, alistGet, if_neg h, if_neg h]
      exact alistGet_mapUpdate key t rest

/-! ## UTF-8 safety of the byte scanner -/

theorem utf8Consume_append :
    ∀ (xs : List Nat) (st : List (Nat × Nat)) (ys : List Nat),
      utf8Consume st (xs ++ ys) = (utf8Consume st xs).bind (fun st' => utf8Consume st' ys)
  | [], st, ys => by simp [utf8Consume]
  | x :: xs, st, ys => by
    rw [List.cons_append, utf8Consume, utf8Consume]
    cases utf8Step st x with
    | none => simp
    | some st' => simp [utf8Consume_append xs st' ys]

/-- Appending valid byte strings yields a valid byte string. -/
theorem utf8Valid_append {a b : List Nat} (ha : utf8Valid a = true) (hb : utf8Valid b = true) :
    utf8Valid (a ++ b) = true := by
  simp only [utf8Valid, beq_iff_eq] at *
  rw [utf8Consume_append, ha]
  simpa using hb

/-- Every range a reachable automaton state expects starts at `0x80` or
above. -/
theorem utf8Step_lo {st st' : List (Nat × Nat)} {b : Nat}
    (hst : ∀ p ∈ st, 0x80 ≤ p.1) (h : utf8Step st b = some st') :
    ∀ p ∈ st', 0x80 ≤ p.1 := by
  cases st with
  | nil =>
    rw [utf8Step] at h
    split_ifs at h <;> first
      | exact Option.noConfusion h
      | (injection h with h; subst h; intro p hp; fin_cases hp <;> norm_num)
  | cons head expected =>
    obtain ⟨lo, hi⟩ := head
    rw [utf8Step] at h
    split_ifs at h with hr
    injection h with h
    subst h
    intro p hp
    exact hst p (List.mem_cons_of_mem _ hp)

/-- In a reachable state, an ASCII byte can only be accepted from the empty
state, and leaves the automaton in the empty state. -/
theorem utf8Step_ascii {st st' : List (Nat × Nat)} {b : Nat}
    (hst : ∀ p ∈ st, 0x80 ≤ p.1) (hb : b < 0x80) (h : utf8Step st b = some st') :
    st = [] ∧ st' = [] := by
  cases st with
  | nil =>
    rw [utf8Step, if_pos hb] at h
    injection h with h
    exact ⟨rfl, h.symm⟩
  | cons head expected =>
    obtain ⟨lo, hi⟩ := head
    have hlo : 0x80 ≤ lo := hst (lo, hi) (List.mem_cons_self _ _)
    rw [utf8Step, if_neg (by omega)] at h
    exact absurd h (by simp)

theorem utf8Consume_lo :
    ∀ (xs : List Nat) {st st' : List (Nat × Nat)},
      (∀ p ∈ st, 0x80 ≤ p.1) → utf8Consume st xs = some st' → ∀ p ∈ st', 0x80 ≤ p.1
  | [], st, st', hst, h => by
    rw [utf8Consume] at h
    injection h with h; subst h; exact hst
  | x :: xs, st, st', hst, h => by
    rw [utf8Consume] at h
    match hstep : utf8Step st x with
    | some st₂ =>
      rw [hstep, Option.some_bind] at h
      exact utf8Consume_lo xs (utf8Step_lo hst hstep) h
    | none => rw [hstep, Option.none_bind] at h; exact absurd h (by simp)

theorem stopIdx_some (cb : Nat → Bool) :
    ∀ (s : List Nat) (i : Nat), stopIdx cb s = some i → ∃ b, s[i]? = some b ∧ b < 128
  | [], i, h => by simp [stopIdx] at h
  | b :: rest, i, h => by
    rw [stopIdx] at h
    by_cases hstop : (decide (b < 128) && cb b) = true
    · rw [if_pos hstop] at h
      injection h with h; subst h
      simp only [Bool.and_eq_true, decide_eq_true_eq] at hstop
      exact ⟨b, by simp, hstop.1⟩
    · rw [if_neg hstop] at h
      simp only [Option.map_eq_some'] at h
      obtain ⟨j, hj, rfl⟩ := h
      obtain ⟨b', hb', hlt⟩ := stopIdx_some cb rest j hj
      exact ⟨b', by simpa using hb', hlt⟩

/-- The scanner's stop position is a character boundary: both the prefix
before the stop byte and the prefix including it are valid UTF-8. -/
theorem stopIdx_take_valid {cb : Nat → Bool} {s : List Nat} {i : Nat}
    (hv : utf8Valid s = true) (hi : stopIdx cb s = some i) :
    utf8Valid (s.take i) = true ∧ utf8Valid (s.take (i + 1)) = true := by
  obtain ⟨b, hget, hb⟩ := stopIdx_some cb s i hi
  simp only [utf8Valid, beq_iff_eq] at hv ⊢
  have hsplit := List.take_append_drop i s
  rw [← hsplit, utf8Consume_append] at hv
  rw [Option.bind_eq_some] at hv
  obtain ⟨st, hst, hrest⟩ := hv
  have hlo : ∀ p ∈ st, 0x80 ≤ p.1 := utf8Consume_lo _ (by simp) hst
  have hilen : i < s.length := by
    by_contra hge
    rw [List.getElem?_eq_none (by omega)] at hget
    exact absurd hget (by simp)
  rw [List.drop_eq_getElem_cons hilen] at hrest
  have hbeq : s[i] = b := by
    rw [List.getElem?_eq_getElem hilen] at hget
    injection hget
  rw [hbeq, utf8Consume] at hrest
  match hstep : utf8Step st b with
  | none => rw [hstep, Option.none_bind] at hrest; exact absurd hrest (by simp)
  | some st₂ =>
    obtain ⟨hst_nil, hst₂_nil⟩ := utf8Step_ascii hlo hb hstep
    subst hst_nil
    refine ⟨hst, ?_⟩
    rw [List.take_succ, hget]
    simp only [Option.toList_some]
    rw [utf8Consume_append, hst, Option.some_bind, utf8Consume,
      show utf8Step [] b = some [] from by rw [utf8Step, if_pos hb], Option.some_bind,
      utf8Consume]

/-! ## Line-oriented scanning lemmas -/

/-- A byte never occurring in `s` is never a stop byte. -/
theorem stopIdx_byte_none {c : Nat} :
    ∀ s : List Nat, s.contains c = false → stopIdx (fun b => b == c) s = none
  | [], _ => rfl
  | b :: rest, h => by
    simp only [List.contains_cons, Bool.or_eq_false_iff, beq_eq_false_iff_ne] at h
    rw [stopIdx, if_neg (by simp; exact fun _ hbc => h.1 hbc.symm),
      stopIdx_byte_none rest (by simpa using h.2)]
    rfl

/-- The first occurrence of an ASCII byte `c` after a `c`-free prefix is
the stop position. -/
theorem stopIdx_byte_append {c : Nat} (hc : c < 128) :
    ∀ (l t : List Nat), l.contains c = false →
      stopIdx (fun b => b == c) (l ++ c :: t) = some l.length
  | [], t, _ => by
    rw [List.nil_append, stopIdx, if_pos (by simp [hc])]
    rfl
  | b :: l, t, h => by
    simp only [List.contains_cons, Bool.or_eq_false_iff, beq_eq_false_iff_ne] at h
    rw [List.cons_append, stopIdx, if_neg (by simp; exact fun _ hbc => h.1 hbc.symm),
      stopIdx_byte_append hc l t (by simpa using h.2)]
    rfl

theorem read_line_stop {s : List Nat} {i : Nat} (h : stopIdx (fun b => b == 10) s = some i) :
    read_line s =
      if utf8Valid (s.take (i + 1)) then .ok (s.take (i + 1), s.drop (i + 1))
      else .error .Unicode := by
  rw [read_line, read_until, h]
  rfl

theorem read_line_nostop {s : List Nat} (h : stopIdx (fun b => b == 10) s = none) :
    read_line s = if utf8Valid s then .ok (s, []) else .error .Unicode := by
  rw [read_line, read_until, h]
  dsimp only
  simp only [List.take_length, List.drop_length]

theorem read_until_char_stop {c : Nat} {s : List Nat} {i : Nat}
    (h : stopIdx (fun b => b == c) s = some i) :
    read_until_char c s =
      if utf8Valid (s.take i) then .ok (s.take i, s.drop i) else .error .Unicode := by
  rw [read_until_char, read_until, h]
  rfl

theorem read_until_char_nostop {c : Nat} {s : List Nat}
    (h : stopIdx (fun b => b == c) s = none) :
    read_until_char c s = if utf8Valid s then .ok (s, []) else .error .Unicode := by
  rw [read_until_char, read_until, h]
  dsimp only
  simp only [List.take_length, List.drop_length]

/-- `read_line` on a buffer starting with a newline-free valid line
consumes exactly that line, newline included. -/
theorem read_line_append {l t : List Nat} (h10 : l.contains 10 = false)
    (hv : utf8Valid (l ++ [10]) = true) :
    read_line (l ++ 10 :: t) = .ok (l ++ [10], t) := by
  rw [read_line_stop (stopIdx_byte_append (by omega) l t h10)]
  have hsplit : l ++ 10 :: t = (l ++ [10]) ++ t := by simp
  have hlen : (l ++ [10]).length = l.length + 1 := by simp
  rw [hsplit, List.take_left' hlen, List.drop_left' hlen, if_pos hv]

/-- `read_line` on a final line (no newline except possibly the last byte)
consumes the whole remainder. -/
theorem read_line_tail {l : List Nat} (hne : l ≠ []) (h10 : l.dropLast.contains 10 = false)
    (hv : utf8Valid l = true) :
    read_line l = .ok (l, []) := by
  by_cases hct : l.contains 10 = true
  · have hlast : l.getLast hne = 10 := by
      have hmem : 10 ∈ l := by simpa using hct
      rw [← List.dropLast_append_getLast hne] at hmem
      rcases List.mem_append.1 hmem with hm | hm
      · exact absurd hm (by simpa using h10)
      · exact (List.mem_singleton.1 hm).symm
    have hshape : l = l.dropLast ++ 10 :: [] := by
      rw [← hlast]
      exact (List.dropLast_append_getLast hne).symm
    rw [show read_line l = read_line (l.dropLast ++ 10 :: []) from by rw [← hshape],
      read_line_stop (stopIdx_byte_append (by omega) _ _ h10)]
    have hlen : (l.dropLast ++ 10 :: []).length = l.dropLast.length + 1 := by simp
    rw [← hlen, List.take_length, List.drop_length, ← hshape, if_pos hv]
  · rw [read_line_nostop (stopIdx_byte_none l (by simpa using hct)), if_pos hv]

/-- Two literal prefixes with different first bytes cannot both match. -/
theorem hash_not_fence {x : List Nat} (h : (bs "# ").isPrefixOf x = true) :
    (bs "```").isPrefixOf x = false := by
  rcases x with _ | ⟨x0, x⟩
  · exact absurd h (by decide)
  · have hx0 : x0 = 35 := by
      have := h
      rw [show bs "# " = [35, 32] from rfl] at this
      simp only [List.isPrefixOf, Bool.and_eq_true, beq_iff_eq] at this
      exact this.1.symm
    subst hx0
    rw [show bs "```" = [96, 96, 96] from rfl]
    simp [List.isPrefixOf]

/-- The body of a well-formed block — a hidden line, a visible line, and a
closing fence — is rewritten by dropping exactly the hidden line. -/
theorem blockGo_three_lines (fuel : Nat) (h0 v0 cf : List Nat)
    (hfuel : 3 ≤ fuel)
    (hh : h0.contains 10 = false) (hhv : utf8Valid (h0 ++ [10]) = true)
    (hhid : (bs "# ").isPrefixOf (trimStart (h0 ++ [10])) = true)
    (hv10 : v0.contains 10 = false) (hvv : utf8Valid (v0 ++ [10]) = true)
    (hvis1 : (bs "# ").isPrefixOf (trimStart (v0 ++ [10])) = false)
    (hvis2 : (bs "```").isPrefixOf (trimStart (v0 ++ [10])) = false)
    (hcf : cf ≠ []) (hcf10 : cf.dropLast.contains 10 = false) (hcfv : utf8Valid cf = true)
    (hfence : (bs "```").isPrefixOf (trimStart cf) = true) :
    blockGo fuel (h0 ++ 10 :: (v0 ++ 10 :: cf)) = .ok (v0 ++ 10 :: cf, []) := by
  obtain ⟨f, rfl⟩ : ∃ f, fuel = f + 3 := ⟨fuel - 3, by omega⟩
  rw [show f + 3 = (f + 2) + 1 from rfl, blockGo, read_line_append hh hhv]
  dsimp only
  rw [if_neg (by simp), if_neg (by simp [hash_not_fence hhid]), if_pos hhid]
  rw [show f + 2 = (f + 1) + 1 from rfl, blockGo, read_line_append hv10 hvv]
  dsimp only
  rw [if_neg (by simp), if_neg (by simp [hvis2]), if_neg (by simp [hvis1])]
  rw [blockGo, read_line_tail hcf hcf10 hcfv]
  dsimp only
  rw [if_neg (by simp [hcf]), if_pos hfence]
  simp

/-! ## Sections without tokens or fences pass through unchanged -/

/-- A `$`-free valid section passes through reference resolution
unchanged, with the snippet store untouched. -/
theorem replace_references_no_dollar {s : List Nat} (glossary : GlossaryMap)
    (fs : List Nat → Option (List Nat)) (snippets : Snippets) (context : Context)
    (hv : utf8Valid s = true) (h36 : s.contains 36 = false) :
    replace_references s glossary fs snippets context = .ok (s, snippets) := by
  rw [replace_references, replaceRefsGo,
    read_until_char_nostop (stopIdx_byte_none s h36), if_pos hv]
  dsimp only
  rw [List.nil_append, if_pos hv]

theorem hasSeq_cons {pat : List Nat} {b : Nat} {rest : List Nat} :
    hasSeq pat (b :: rest) = (pat.isPrefixOf (b :: rest) || hasSeq pat rest) := by
  rw [hasSeq, findSeq]
  by_cases h : pat.isPrefixOf (b :: rest) = true
  · rw [if_pos h, h, Bool.true_or]
    rfl
  · have h' : pat.isPrefixOf (b :: rest) = false := by
      cases hq : pat.isPrefixOf (b :: rest)
      · rfl
      · exact absurd hq h
    rw [if_neg h, h', Bool.false_or, hasSeq]
    simp only [Option.isSome_map']

/-- A section with no occurrence of the opening tag passes through the
code-block rewriter byte-for-byte. -/
theorem preprocessGo_no_fence :
    ∀ (fuel : Nat) (s : List Nat), s.length < fuel → hasSeq (bs "```rust") s = false →
      preprocessGo fuel s = .ok s
  | fuel + 1, [], _, _ => by rw [preprocessGo]
  | fuel + 1, ch :: rest, hlen, hno => by
    rw [hasSeq_cons, Bool.or_eq_false_iff] at hno
    have hrest := preprocessGo_no_fence fuel rest (by simpa using Nat.lt_of_succ_lt_succ hlen)
      hno.2
    rw [preprocessGo]
    by_cases hch : ch = 96
    · rw [if_pos hch]
      have hpre : (bs "``rust").isPrefixOf rest = false := by
        have h1 := hno.1
        rw [show bs "```rust" = 96 :: bs "``rust" from rfl] at h1
        subst hch
        simpa [List.isPrefixOf] using h1
      rw [try_read, if_neg (by simp [hpre])]
      dsimp only
      rw [hrest]
    · rw [if_neg hch, hrest]

/-- `preprocess_rust_codeblocks` is the identity on fence-free valid
sections. -/
theorem preprocess_no_fence {s : List Nat} (hv : utf8Valid s = true)
    (hno : hasSeq (bs "```rust") s = false) :
    preprocess_rust_codeblocks s = .ok s := by
  rw [preprocess_rust_codeblocks, preprocessGo_no_fence (s.length + 1) s (by omega) hno]
  dsimp only
  rw [if_pos hv]

/-- `process_markdown` is the identity on token-free, fence-free valid
sections. -/
theorem process_markdown_id {s : List Nat} (glossary : GlossaryMap)
    (fs : List Nat → Option (List Nat)) (snippets : Snippets) (context : Context)
    (hv : utf8Valid s = true) (h36 : s.contains 36 = false)
    (hno : hasSeq (bs "```rust") s = false) :
    process_markdown s glossary fs snippets context = .ok (s, snippets) := by
  rw [process_markdown, replace_references_no_dollar glossary fs snippets context hv h36]
  dsimp only
  rw [preprocess_no_fence hv hno]

/-- The tail of the concatenation the generator produces: each remaining
section preceded by the separator byte. -/
def nlConcat : List (List Nat) → List Nat
  | [] => []
  | s :: rest => 10 :: (s ++ nlConcat rest)

theorem concatSections_cons (s : List Nat) (rest : List (List Nat)) :
    concatSections (s :: rest) = s ++ nlConcat rest := by
  induction rest generalizing s with
  | nil => simp [concatSections, nlConcat]
  | cons r t ih =>
    rw [show concatSections (s :: r :: t) = s ++ 10 :: concatSections (r :: t) from rfl, ih r]
    rfl

/-! ## Files without end markers -/

/-- `hasSeq` decides the infix relation. -/
theorem hasSeq_eq_true_iff {pat : List Nat} :
    ∀ {s : List Nat}, hasSeq pat s = true ↔ pat <:+: s := by
  intro s
  induction s with
  | nil =>
    constructor
    · intro h
      rw [hasSeq, findSeq] at h
      by_cases hp : pat = []
      · subst hp; exact List.infix_refl []
      · rw [if_neg hp] at h; exact absurd h (by simp)
    · intro h
      have : pat = [] := List.eq_nil_of_infix_nil h
      subst this
      decide
  | cons b rest ih =>
    rw [hasSeq_cons]
    constructor
    · intro h
      rcases Bool.or_eq_true_iff.1 h with h | h
      · exact (List.isPrefixOf_iff_prefix.1 h).isInfix
      · exact List.infix_cons (ih.1 h)
    · intro h
      rcases List.infix_cons_iff.1 h with h | h
      · exact Bool.or_eq_true_iff.2 (Or.inl (List.isPrefixOf_iff_prefix.2 h))
      · exact Bool.or_eq_true_iff.2 (Or.inr (ih.2 h))

/-- Every line produced by the line splitter is an infix of the input. -/
theorem linesGo_mem_within :
    ∀ (fuel : Nat) (s l : List Nat), l ∈ linesGo fuel s → l <:+: s
  | 0, s, l, h => by exact absurd h (by simp [linesGo])
  | fuel + 1, s, l, h => by
    rw [linesGo] at h
    match hstop : stopIdx (fun b => b == 10) s with
    | none =>
      rw [hstop] at h
      by_cases hs : s = []
      · rw [if_pos hs] at h
        exact absurd h (by simp)
      · rw [if_neg hs] at h
        have : l = s := by simpa using h
        subst this
        exact List.infix_refl l
    | some i =>
      rw [hstop] at h
      rcases List.mem_cons.1 h with h | h
      · subst h
        have h1 : stripCr (s.take i) <+: s.take i := by
          rw [stripCr]
          split_ifs
          · exact List.dropLast_prefix _
          · exact List.prefix_rfl
        exact (h1.trans (List.take_prefix i s)).isInfix
      · exact ((linesGo_mem_within fuel _ l h).trans (List.drop_suffix (i + 1) s).isInfix)

/-- If the whole file contains no end marker, neither does any of its
lines. -/
theorem lines_no_end {contents l : List Nat} (h : hasSeq SNIPPET_END contents = false)
    (hl : l ∈ linesOf contents) : hasSeq SNIPPET_END l = false := by
  cases hq : hasSeq SNIPPET_END l
  · rfl
  · have h1 : SNIPPET_END <:+: l := hasSeq_eq_true_iff.1 hq
    have h2 : l <:+: contents := linesGo_mem_within _ _ _ hl
    have := hasSeq_eq_true_iff.2 (h1.trans h2)
    rw [this] at h
    exact absurd h (by simp)

/-- Over end-marker-free lines the snippet loop only tracks collector
state: the store is returned untouched. -/
theorem snippetsGo_no_end (ref_path : List Nat) :
    ∀ (ls : List (List Nat)) (current_name : Option (List Nat))
      (current_lines : List (List Nat)) (snippets : Snippets),
      (∀ l ∈ ls, hasSeq SNIPPET_END l = false) →
      snippetsGo ref_path ls current_name current_lines snippets = .ok snippets
  | [], _, _, snippets, _ => by rw [snippetsGo]
  | line :: rest, current_name, current_lines, snippets, h => by
    have hline := h line (List.mem_cons_self _ _)
    have hrest : ∀ l ∈ rest, hasSeq SNIPPET_END l = false :=
      fun l hl => h l (List.mem_cons_of_mem _ hl)
    rw [snippetsGo]
    match hfind : findSeq SNIPPET_START line with
    | some i =>
      rw [snippetsLine.eq_def, hfind]
      dsimp only
      rw [snippetsGo_no_end ref_path rest _ _ snippets hrest]
    | none =>
      rw [snippetsLine.eq_def, hfind]
      dsimp only
      rw [if_neg (by simp [hline])]
      by_cases hn : current_name.isSome = true
      · rw [if_pos hn]
        dsimp only
        rw [snippetsGo_no_end ref_path rest _ _ snippets hrest]
      · rw [if_neg hn]
        dsimp only
        rw [snippetsGo_no_end ref_path rest _ _ snippets hrest]

/-- Inserting under one key leaves lookups of other keys unchanged. -/
theorem alistGet_insert_of_ne {α : Type} {key key' : List Nat} (v : α)
    (h : key ≠ key') :
    ∀ m : List (List Nat × α), alistGet key' (alistInsert key v m) = alistGet key' m
  | [] => by simp [alistInsert, alistGet, h]
  | (k, w) :: rest => by
    rw [alistInsert]
    by_cases hk : k = key
    · subst hk
      rw [if_pos rfl]
      simp only [alistGet]
      rw [if_neg h, if_neg h]
    · rw [if_neg hk]
      simp only [alistGet]
      by_cases hk' : k = key'
      · rw [if_pos hk', if_pos hk']
      · rw [if_neg hk', if_neg hk', alistGet_insert_of_ne v h rest]

/-! ## Claims -/

/-- C1 (counterexample): stripping the collected region lines
`["# foo", "# bar"]` does not yield `["foo", "bar"]`: `'#'` is not ASCII
whitespace, so the loop condition of `remove_shared_prefix` is false at
once and nothing is stripped. -/
theorem c1_counterexample :
    ¬ remove_shared_prefix [bs "# foo", bs "# bar"] = some [bs "foo", bs "bar"] := by
  decide

/-- C1 (amended): given the collected snippet region lines
`["# foo", "# bar"]`, shared-prefix stripping returns them unchanged. -/
theorem c1_hash_lines_unchanged :
    remove_shared_prefix [bs "# foo", bs "# bar"] = some [bs "# foo", bs "# bar"] := by
  decide

/-- C2 (code bug): on a region of exactly one non-empty line the
`strings[1..].iter().all(..)` condition is vacuously true, so the loop
strips past the empty string and panics on the out-of-bounds slice
`&""[1..]` (modelled as `none` / `Error.Panic`) instead of halting
normally; `load_snippets` hits this for any single-line snippet region. -/
theorem c2_singleton_region_panics :
    remove_shared_prefix [bs "x"] = none ∧
      load_snippets (bs "f") (some (bs "begin rustme snippet: a\nx\nend rustme snippet")) [] =
        .error .Panic := by
  decide

/-- C3: a `Conditional` term renders to its `for_docs` value when the
documentation flag is set and the field is present, else to its `release`
value when the release flag is set and the field is present, else to
`default` (the empty string when absent); in particular the all-absent term
renders to the empty string in every context, never an error. -/
theorem c3_conditional_rendering :
    (∀ (fd rl df : Option (List Nat)) (fdc rlc : Bool),
      Term.to_string (.Conditional fd rl df) ⟨fdc, rlc⟩ =
        if fdc = true ∧ fd.isSome then fd.getD []
        else if rlc = true ∧ rl.isSome then rl.getD []
        else df.getD []) ∧
    (∀ context : Context, Term.to_string (.Conditional none none none) context = []) := by
  constructor
  · intro fd rl df fdc rlc
    cases fd <;> cases rl <;> cases fdc <;> cases rlc <;> simp [Term.to_string]
  · intro context
    cases context with
    | mk fdc rlc => cases fdc <;> cases rlc <;> rfl

/-- C4: merging an incoming `Conditional` term over an existing `Static`
binding produces a `Conditional` whose `default` falls back to the static
value unless the incoming term already specifies a default. -/
theorem c4_static_then_conditional (m : GlossaryMap) (key v : List Nat)
    (fd rl df : Option (List Nat)) (h : alistGet key m = some (Term.Static v)) :
    alistGet key (merge_term m key (Term.Conditional fd rl df)) =
      some (Term.Conditional fd rl (df.or (some v))) := by
  rw [merge_term, if_pos (by rw [h]; rfl), alistGet_mapUpdate, h]
  rfl

/-- C4 witness: merging `Static("A")` then
`Conditional{default: None, release: Some("B")}` yields
`Conditional{default: Some("A"), release: Some("B")}`. -/
theorem c4_witness :
    alistGet (bs "t")
        (merge_term [(bs "t", Term.Static (bs "A"))] (bs "t")
          (Term.Conditional none (some (bs "B")) none)) =
      some (Term.Conditional none (some (bs "B")) (some (bs "A"))) :=
  c4_static_then_conditional _ _ _ _ _ _ (by decide)

/-- C5: an empty token body between two consecutive `$` signs is an escaped
literal dollar sign: for every glossary, file system, snippet store and
context, resolving `"a $$ b"` yields `"a $ b"` with the store untouched. -/
theorem c5_escaped_dollar (glossary : GlossaryMap) (fs : List Nat → Option (List Nat))
    (snippets : Snippets) (context : Context) :
    replace_references (bs "a $$ b") glossary fs snippets context =
      .ok (bs "a $ b", snippets) := rfl

/-- C6: a `$` opening a token whose closing `$` never comes fails with the
malformed-code-block error (the source reuses that error kind for an
unterminated token): `"a $b"` fails for every glossary, file system,
snippet store and context. -/
theorem c6_unterminated_token (glossary : GlossaryMap) (fs : List Nat → Option (List Nat))
    (snippets : Snippets) (context : Context) :
    replace_references (bs "a $b") glossary fs snippets context =
      .error .MalformedCodeBlock := rfl

/-- C8: for every byte predicate and every valid UTF-8 input, `read_until`
returns `Ok` with a valid UTF-8 prefix and never the Unicode error: the
predicate is consulted only for bytes below 128, so the cursor never splits
a multi-byte code point. -/
theorem c8_read_until_utf8_safe (cb : Nat → Bool) (include_last_byte : Bool) (s : List Nat)
    (h : utf8Valid s = true) :
    ∃ pre rest, read_until cb include_last_byte s = .ok (pre, rest) ∧ utf8Valid pre = true := by
  match hstop : stopIdx cb s with
  | some i =>
    obtain ⟨h1, h2⟩ := stopIdx_take_valid h hstop
    cases include_last_byte with
    | true =>
      refine ⟨s.take (i + 1), s.drop (i + 1), ?_, h2⟩
      simp [read_until, hstop, h2]
    | false =>
      refine ⟨s.take i, s.drop i, ?_, h1⟩
      simp [read_until, hstop, h1]
  | none =>
    refine ⟨s, s.drop s.length, ?_, h⟩
    simp [read_until, hstop, List.take_length, h]

/-- C8 witness: scanning `"α$β"` for a dollar sign stops exactly at the
`$`, with the multi-byte `α` kept whole in the valid prefix. -/
theorem c8_witness :
    ∃ pre rest, read_until (fun b => b == 36) false (bs "α$β") = .ok (pre, rest) ∧
      utf8Valid pre = true :=
  c8_read_until_utf8_safe (fun b => b == 36) false (bs "α$β") (by decide)

/-- C7: a fenced block opened with the source-language tag whose body is a
hidden-line marker, a visible line, and a closing fence is rewritten by
dropping exactly the hidden line: the opening fence line (`"```rust"` plus
the rest of its line), the visible line, and the closing fence line are
preserved verbatim. -/
theorem c7_hidden_line_dropped (r0 h0 v0 cf : List Nat)
    (hr : r0.contains 10 = false) (hrv : utf8Valid (r0 ++ [10]) = true)
    (hh : h0.contains 10 = false) (hhv : utf8Valid (h0 ++ [10]) = true)
    (hhid : (bs "# ").isPrefixOf (trimStart (h0 ++ [10])) = true)
    (hv10 : v0.contains 10 = false) (hvv : utf8Valid (v0 ++ [10]) = true)
    (hvis1 : (bs "# ").isPrefixOf (trimStart (v0 ++ [10])) = false)
    (hvis2 : (bs "```").isPrefixOf (trimStart (v0 ++ [10])) = false)
    (hcf : cf ≠ []) (hcf10 : cf.dropLast.contains 10 = false) (hcfv : utf8Valid cf = true)
    (hfence : (bs "```").isPrefixOf (trimStart cf) = true) :
    preprocess_rust_codeblocks
        (bs "```rust" ++ (r0 ++ 10 :: (h0 ++ 10 :: (v0 ++ 10 :: cf)))) =
      .ok (bs "```rust" ++ (r0 ++ 10 :: (v0 ++ 10 :: cf))) := by
  have hB : bs "```rust" ++ (r0 ++ 10 :: (h0 ++ 10 :: (v0 ++ 10 :: cf))) =
      96 :: (bs "``rust" ++ (r0 ++ 10 :: (h0 ++ 10 :: (v0 ++ 10 :: cf)))) := rfl
  rw [preprocess_rust_codeblocks, hB, preprocessGo]
  rw [if_pos rfl]
  rw [try_read, if_pos (List.isPrefixOf_iff_prefix.2 (List.prefix_append _ _))]
  rw [List.drop_left]
  dsimp only
  rw [read_line_append hr hrv]
  dsimp only
  rw [blockGo_three_lines _ h0 v0 cf (by simp; omega) hh hhv hhid hv10 hvv hvis1 hvis2 hcf
    hcf10 hcfv hfence]
  dsimp only
  simp only [List.length_cons]
  rw [preprocessGo]
  dsimp only
  have hout : bs "```rust" ++ (r0 ++ [10]) ++ (v0 ++ 10 :: cf) ++ [] =
      bs "```rust" ++ (r0 ++ 10 :: (v0 ++ 10 :: cf)) := by
    simp
  rw [hout]  -- may need adjustment to actual goal shape
  rw [if_pos ?hvalid]
  case hvalid =>
    have h1 : utf8Valid (bs "```rust") = true := by decide
    have h2 : utf8Valid (v0 ++ 10 :: cf) = true := by
      have : v0 ++ 10 :: cf = (v0 ++ [10]) ++ cf := by simp
      rw [this]
      exact utf8Valid_append hvv hcfv
    have h3 : utf8Valid (r0 ++ 10 :: (v0 ++ 10 :: cf)) = true := by
      have : r0 ++ 10 :: (v0 ++ 10 :: cf) = (r0 ++ [10]) ++ (v0 ++ 10 :: cf) := by simp
      rw [this]
      exact utf8Valid_append hrv h2
    exact utf8Valid_append h1 h3

/-- C7 witness: the block ```` ```rust / # hidden / x(); / ``` ```` drops
exactly the hidden line. -/
theorem c7_witness :
    preprocess_rust_codeblocks
        (bs "```rust" ++ ([] ++ 10 :: (bs "# hidden" ++ 10 :: (bs "x();" ++ 10 :: bs "```")))) =
      .ok (bs "```rust" ++ ([] ++ 10 :: (bs "x();" ++ 10 :: bs "```"))) :=
  c7_hidden_line_dropped [] (bs "# hidden") (bs "x();") (bs "```") (by decide) (by decide)
    (by decide) (by decide) (by decide) (by decide) (by decide) (by decide) (by decide)
    (by decide) (by decide) (by decide) (by decide)

theorem generateFileGo_rest (glossary : GlossaryMap) (fs : List Nat → Option (List Nat))
    (context : Context) :
    ∀ (sections : List (List Nat)) (snippets : Snippets) (acc : List Nat),
      (∀ s ∈ sections, utf8Valid s = true ∧ s.contains 36 = false ∧
        hasSeq (bs "```rust") s = false) →
      generateFileGo glossary fs context sections snippets acc false =
        .ok (acc ++ nlConcat sections, snippets)
  | [], snippets, acc, _ => by rw [generateFileGo, nlConcat, List.append_nil]
  | sec :: rest, snippets, acc, h => by
    obtain ⟨hv, h36, hno⟩ := h sec (List.mem_cons_self _ _)
    rw [generateFileGo]
    rw [process_markdown_id glossary fs snippets context hv h36 hno]
    dsimp only
    rw [if_neg (show ¬ false = true by decide)]
    rw [generateFileGo_rest glossary fs context rest snippets (acc ++ [10] ++ sec)
      (fun s hs => h s (List.mem_cons_of_mem _ hs))]
    rw [nlConcat]
    simp

/-- C9 (amended): when every section of the output file contains no `$`
token and no rust fence opening, generation writes output byte-identical to
the concatenation of the sections with the separator between consecutive
sections. -/
theorem c9_no_token_roundtrip (sections : List (List Nat)) (glossary : GlossaryMap)
    (fs : List Nat → Option (List Nat)) (context : Context) (snippets : Snippets)
    (h : ∀ s ∈ sections, utf8Valid s = true ∧ s.contains 36 = false ∧
      hasSeq (bs "```rust") s = false) :
    generateFile sections glossary fs context snippets = .ok (concatSections sections) := by
  cases sections with
  | nil => rfl
  | cons sec rest =>
    obtain ⟨hv, h36, hno⟩ := h sec (List.mem_cons_self _ _)
    rw [generateFile, generateFileGo]
    rw [process_markdown_id glossary fs snippets context hv h36 hno]
    dsimp only
    rw [if_pos (show true = true from rfl)]
    rw [generateFileGo_rest glossary fs context rest snippets ([] ++ sec)
      (fun s hs => h s (List.mem_cons_of_mem _ hs))]
    dsimp only
    rw [concatSections_cons]
    simp

/-- C9 witness: two token-free sections concatenate with the separator. -/
theorem c9_witness :
    generateFile [bs "hello", bs "world"] [] (fun _ => none) ⟨false, false⟩ [] =
      .ok (concatSections [bs "hello", bs "world"]) :=
  c9_no_token_roundtrip [bs "hello", bs "world"] [] (fun _ => none) ⟨false, false⟩ []
    (by decide)

/-- C9 (counterexample): a configuration whose single section contains a
rust-tagged fenced block with a hidden line — but no `$` token — produces
output that differs from the concatenation of its sections: the hidden line
is dropped. -/
theorem c9_counterexample :
    ¬ generateFile [bs "```rust\n# h\nx\n```"] [] (fun _ => none) ⟨false, false⟩ [] =
      .ok (concatSections [bs "```rust\n# h\nx\n```"]) := by decide

/-- C10 (amended): for every source file containing no end-snippet marker
at all (so in particular its last begin marker is never closed), snippet
loading returns success: the unclosed region's collected lines are
discarded, no `file:name` key is inserted (a lookup of any `file:name`
reference finds exactly what was there before, so a later reference fails
with snippet-not-found as before), and the whole-file entry is stored under
the bare file-path key. -/
theorem c10_no_end_marker (ref_path contents : List Nat) (snippets : Snippets)
    (h : hasSeq SNIPPET_END contents = false) :
    load_snippets ref_path (some contents) snippets =
        .ok (alistInsert ref_path contents snippets) ∧
      ∀ name, alistGet (ref_path ++ 58 :: name) (alistInsert ref_path contents snippets) =
        alistGet (ref_path ++ 58 :: name) snippets := by
  constructor
  · rw [load_snippets,
      snippetsGo_no_end ref_path (linesOf contents) none [] snippets
        (fun l hl => lines_no_end h hl)]
  · intro name
    exact alistGet_insert_of_ne contents
      (fun he => by
        have : ref_path.length = (ref_path ++ 58 :: name).length := by rw [← he]
        simp at this) snippets

/-- C10 witness: a file whose only marker is an unclosed begin loads
successfully, storing only the whole-file entry. -/
theorem c10_witness :
    load_snippets (bs "f") (some (bs "begin rustme snippet: a\nx")) [] =
      .ok (alistInsert (bs "f") (bs "begin rustme snippet: a\nx") []) :=
  (c10_no_end_marker (bs "f") (bs "begin rustme snippet: a\nx") [] (by decide)).1

/-- C10 (counterexample): a file whose last (and only) begin marker is
never followed by an end marker can still fail to load — a stray end
marker before it raises the malformed-snippet error, so loading does not
return success for every such file. -/
theorem c10_counterexample :
    load_snippets (bs "f") (some (bs "end rustme snippet\nbegin rustme snippet: a\nx")) [] =
      .error .MalformedSnippet := by decide

end Rustme
